import Mathlib

/-!
Verification of the state-diff and notification-aggregation engine of
`monitor_als_arcteryx.py` (snapshot diffing, baseline guard, per-product
message aggregation, stable-key resolution, atomic snapshot save).

The Python code is shallowly embedded: snapshots are association lists from
string keys to records, Python floats are modelled as exact rationals
(`none`/NaN/non-numeric collapse into explicit constructors), dictionary
`.get` defaults are modelled by `Option.getD`, and `sorted()` is modelled by
a stable insertion sort under code-point lexicographic order, which is the
order Python uses on strings.  All definitions are computable so that
concrete runs of the pipeline can be evaluated by `decide`.
-/

/-- A Python value sitting in the `price` field of a record.  `num q` is a
real (non-NaN) `int`/`float` with exact value `q`; `nan` is `float('nan')`;
`noneV` covers both an absent `"price"` key and an explicit `None`
(`dict.get` returns `None` in both cases); `other` is any non-numeric value
(e.g. a string), for which `isinstance(op, (int, float))` is false. -/
inductive PVal where
  | num (q : ℚ)
  | nan
  | noneV
  | other
deriving DecidableEq

/-- A Python value sitting in a per-size quantity map.  `int n` is a value
that `int(·)` converts to `n` (in practice an `int`); `raw t` is a value on
which `int(·)` raises, carrying its Python truthiness `t`. -/
inductive QtyV where
  | int (n : ℤ)
  | raw (truthy : Bool)
deriving DecidableEq

/-- `int(v)` in Python: `some n` on success, `none` when it raises. -/
def QtyV.toInt : QtyV → Option ℤ
  | .int n => some n
  | .raw _ => none

/-- Python truthiness of a quantity value (`0` is falsy, other ints truthy). -/
def QtyV.truthy : QtyV → Bool
  | .int n => n != 0
  | .raw t => t

/-- A product record as `compute_diff` sees it.  `in_stock = none` models a
record whose `"in_stock"` key is absent (`o.get("in_stock", False)` then
yields `False`); `sizes = none` models an absent or `None` `"sizes"` value
(`o.get("sizes") or {}` then yields `{}`). -/
structure Rec where
  price : PVal
  in_stock : Option Bool
  sizes : Option (List (String × QtyV))
deriving DecidableEq

/-- A snapshot: insertion-ordered mapping from stable key to record. -/
abbrev Snap := List (String × Rec)

/-- The record Python's `old.get(k, {})` yields when `k` is absent: an empty
dict, whose field getters all take their defaults. -/
def emptyRec : Rec := { price := .noneV, in_stock := none, sizes := none }

/-- `d.get(k, {})` on a snapshot. -/
def getRec (s : Snap) (k : String) : Rec := (List.lookup k s).getD emptyRec

/-- The key list of a snapshot (`d.keys()`). -/
def keysOf (s : Snap) : List String := s.map Prod.fst

/-- `o.get("in_stock", False)` followed by Python truthiness. -/
def inStockD (r : Rec) : Bool := r.in_stock.getD false

/-- `o.get("sizes") or {}`. -/
def sizesD (r : Rec) : List (String × QtyV) := r.sizes.getD []

/-- `osizes.get(size, 0)`. -/
def qtyD (l : List (String × QtyV)) (size : String) : QtyV :=
  (List.lookup size l).getD (.int 0)

/-- Code-point lexicographic comparison of character lists: the comparison
Python's `sorted` uses on strings. -/
def lexLe : List Char → List Char → Bool
  | [], _ => true
  | _ :: _, [] => false
  | a :: as, b :: bs => if a < b then true else if b < a then false else lexLe as bs

/-- Python `<=` on strings. -/
def strLe (a b : String) : Bool := lexLe a.data b.data

/-- `strLe` as a relation, for use with `List.insertionSort`. -/
def strLeP (a b : String) : Prop := strLe a b = true

instance : DecidableRel strLeP := fun a b => inferInstanceAs (Decidable (_ = true))

/-- Python `sorted(set(l))`: the distinct elements of `l` in ascending
code-point lexicographic order. -/
def sortedSet (l : List String) : List String :=
  List.insertionSort strLeP l.dedup

/-- Exact subtraction of rationals, written with `mkRat` (cross
multiplication) so that it evaluates inside the kernel; proved equal to
`a - b` in `ratSub_eq` below. -/
def ratSub (a b : ℚ) : ℚ := mkRat (a.num * b.den - b.num * a.den) (a.den * b.den)

/-- Python `abs` on a rational; proved equal to `|q|` in `ratAbs_eq` below. -/
def ratAbs (q : ℚ) : ℚ := if q < 0 then -q else q

/-- The `PriceChange` test of `compute_diff`:
`isinstance(op, (int, float)) and isinstance(np, (int, float)) and
 not isnan(op) and not isnan(np) and abs(op - np) >= 0.01`. -/
def priceFires (o n : Rec) : Bool :=
  match o.price, n.price with
  | .num a, .num b => decide (mkRat 1 100 ≤ ratAbs (ratSub a b))
  | _, _ => false

/-- The `Restock` test of `compute_diff`:
`(not o.get("in_stock", False)) and n.get("in_stock", False)`. -/
def restockFires (o n : Rec) : Bool := !(inStockD o) && inStockD n

/-- One iteration of the per-size loop of `compute_diff`:
`try: if int(nqty) > int(oqty): increased[size] = int(nqty)`
`except: if (nqty and not oqty): increased[size] = 1`. -/
def sizeIncrease (oq nq : QtyV) : Option ℤ :=
  match nq.toInt, oq.toInt with
  | some a, some b => if b < a then some a else none
  | _, _ => if nq.truthy && !oq.truthy then some 1 else none

/-- The `increased` dict computed by `compute_diff` for one key: every size
of the current record whose quantity rose above the prior quantity for that
size (0 when previously unseen), mapped to its recorded new quantity. -/
def increasedSizes (o n : Rec) : List (String × ℤ) :=
  (sizesD n).filterMap fun p =>
    (sizeIncrease (qtyD (sizesD o) p.1) p.2).map fun v => (p.1, v)

/-- `sorted(new_keys - old_keys)`. -/
def newOnlyKeys (old new : Snap) : List String :=
  sortedSet ((keysOf new).filter fun k => !(keysOf old).contains k)

/-- `sorted(new_keys & old_keys)`. -/
def bothKeys (old new : Snap) : List String :=
  sortedSet ((keysOf new).filter fun k => (keysOf old).contains k)

/-- The result of `compute_diff`. -/
structure DiffResult where
  new_items : List (String × Rec)
  price_changes : List (String × Rec × Rec)
  restocks : List (String × Rec × Rec)
  stock_increases : List (String × Rec × Rec × List (String × ℤ))
deriving DecidableEq

/-- `compute_diff(old, new)`: new keys in sorted order, then for each common
key (in sorted order) the price, restock and per-size stock-increase tests. -/
def compute_diff (old new : Snap) : DiffResult :=
  { new_items :=
      (newOnlyKeys old new).map fun k => (k, getRec new k)
    price_changes :=
      ((bothKeys old new).filter fun k => priceFires (getRec old k) (getRec new k)).map
        fun k => (k, getRec old k, getRec new k)
    restocks :=
      ((bothKeys old new).filter fun k => restockFires (getRec old k) (getRec new k)).map
        fun k => (k, getRec old k, getRec new k)
    stock_increases :=
      ((bothKeys old new).filter fun k =>
          !(increasedSizes (getRec old k) (getRec new k)).isEmpty).map
        fun k => (k, getRec old k, getRec new k,
                   increasedSizes (getRec old k) (getRec new k)) }

/-- The four reason labels, in the order `main` appends them
(`上新`, `价格变化`, `缺货→到货`, `库存增加`). -/
inductive Reason where
  | NewItem
  | PriceChange
  | Restock
  | StockIncrease
deriving DecidableEq

/-- Position of a reason in the fixed precedence order. -/
def Reason.prec : Reason → ℕ
  | .NewItem => 0
  | .PriceChange => 1
  | .Restock => 2
  | .StockIncrease => 3

/-- The aggregation map `reasons_map` of `main`: insertion-ordered dict from
key to its list of reason labels. -/
abbrev RMap := List (String × List Reason)

/-- `reasons_map.setdefault(k, []).append(r)`. -/
def addReason (m : RMap) (k : String) (r : Reason) : RMap :=
  if k ∈ m.map Prod.fst then
    m.map fun p => if p.1 = k then (p.1, p.2 ++ [r]) else p
  else
    m ++ [(k, [r])]

/-- `reasons_map.get(k, [])`. -/
def reasonsAt (m : RMap) (k : String) : List Reason := (List.lookup k m).getD []

/-- The four aggregation loops of `main`, in source order: new items first,
then price changes, restocks and stock increases. -/
def buildReasonsMap (d : DiffResult) : RMap :=
  let m1 := d.new_items.foldl (fun m p => addReason m p.1 .NewItem) []
  let m2 := d.price_changes.foldl (fun m p => addReason m p.1 .PriceChange) m1
  let m3 := d.restocks.foldl (fun m p => addReason m p.1 .Restock) m2
  d.stock_increases.foldl (fun m p => addReason m p.1 .StockIncrease) m3

/-- `total_new / total_all > 0.70`, with the exact rational
`total_new / total_all` written as `mkRat` so it evaluates in the kernel. -/
def newRatioHigh (totalNew totalAll : ℕ) : Bool :=
  Rat.blt (mkRat 7 10) (mkRat totalNew totalAll)

/-- The trigger of the baseline guard in `main`:
`baseline_protect and changed_keys` and then
`ratio > 0.70 and total_all >= 20` with `total_all = len(new) if new else 1`. -/
def guardFires (protect : Bool) (d : DiffResult) (newLen : ℕ) (m : RMap) : Bool :=
  protect && !m.isEmpty &&
    (let totalAll := if newLen = 0 then 1 else newLen
     newRatioHigh d.new_items.length totalAll && decide (20 ≤ totalAll))

/-- One step of the suppression loop:
`reasons_map[k] = [r for r in reasons_map[k] if r != "上新"]` followed by
`reasons_map.pop(k)` when the filtered list is empty. -/
def removeNew (m : RMap) (k : String) : RMap :=
  m.filterMap fun p =>
    if p.1 = k then
      (if (p.2.filter fun x => x ≠ .NewItem).isEmpty then none
       else some (p.1, p.2.filter fun x => x ≠ .NewItem))
    else some p

/-- The baseline-guard stage of `main`: when the trigger fires, strip the
`NewItem` reason from every new item's entry. -/
def applyGuard (protect : Bool) (d : DiffResult) (newLen : ℕ) (m : RMap) : RMap :=
  if guardFires protect d newLen m then
    d.new_items.foldl (fun acc p => removeNew acc p.1) m
  else m

/-- The surviving reasons map of a run. -/
def finalReasons (protect : Bool) (old new : Snap) : RMap :=
  let d := compute_diff old new
  applyGuard protect d new.length (buildReasonsMap d)

/-- The outbound messages of a run, one per changed key, in sorted key
order: `changed_keys = sorted(set(reasons_map.keys()))` followed by one
`build_item_message`/`send_discord` per key. -/
def runMessages (protect : Bool) (old new : Snap) : List (String × List Reason) :=
  let m := finalReasons protect old new
  (sortedSet (m.map Prod.fst)).map fun k => (k, reasonsAt m k)

/-- Well-formedness of a record as a Python dict: the per-size quantity map
has no duplicate sizes. -/
def recWF (r : Rec) : Prop := ((sizesD r).map Prod.fst).Nodup

/-- Well-formedness of a snapshot as a Python dict: distinct keys, and every
record's quantity map has distinct sizes. -/
def snapWF (s : Snap) : Prop := (keysOf s).Nodup ∧ ∀ p ∈ s, recWF p.2

instance : DecidablePred recWF := fun r => inferInstanceAs (Decidable (List.Nodup _))

instance : DecidablePred snapWF := fun s => inferInstanceAs (Decidable (_ ∧ _))

/-- Characters before the first occurrence of `c` (all of `cs` when `c` is
absent): the `p.split(c)[0]`-style splits `urlparse` performs for the
fragment (`#`), the query (`?`) and params (`;`). -/
def beforeChar (c : Char) : List Char → List Char
  | [] => []
  | x :: xs => if x = c then [] else x :: beforeChar c xs

/-- A character admissible inside a URL scheme (RFC 3986 / CPython
`scheme_chars`). -/
def isSchemeChar (c : Char) : Bool :=
  c.isAlpha || c.isDigit || c = '+' || c = '-' || c = '.'

/-- The scheme-stripping step of `urlparse`: when the text up to the first
`:` is a well-formed scheme (nonempty, letter first, scheme chars only),
drop it together with the colon; otherwise leave the URL unchanged. -/
def dropScheme (cs : List Char) : List Char :=
  let pre := cs.takeWhile fun c => c ≠ ':'
  if pre.length < cs.length && !pre.isEmpty &&
      pre.all isSchemeChar && (pre.headD 'a').isAlpha then
    (cs.drop pre.length).drop 1
  else cs

/-- The netloc-stripping step of `urlparse`: after `//`, the authority runs
up to the first `/`, `?` or `#`. -/
def dropNetloc (cs : List Char) : List Char :=
  match cs with
  | '/' :: '/' :: rest => rest.dropWhile fun c => c ≠ '/' && c ≠ '?' && c ≠ '#'
  | _ => cs

/-- Split a character list at its last `/`: `some (pre, post)` with
`cs = pre ++ '/' :: post` and `'/' ∉ post`, or `none` when there is no `/`. -/
def splitAtLastSlash : List Char → Option (List Char × List Char)
  | [] => none
  | x :: xs =>
    match splitAtLastSlash xs with
    | some (pre, post) => some (x :: pre, post)
    | none => if x = '/' then some ([], xs) else none

/-- The params split of `urlparse`: a `;` occurring in the last path
segment starts the params, which `p.path` excludes. -/
def stripParams (p : List Char) : List Char :=
  match splitAtLastSlash p with
  | some (pre, post) => pre ++ '/' :: beforeChar ';' post
  | none => beforeChar ';' p

/-- `urlparse(u).path`: strip the scheme, the `//`-introduced authority,
the fragment, the query, and the params of the last segment. -/
def urlPath (u : List Char) : List Char :=
  stripParams (beforeChar '?' (beforeChar '#' (dropNetloc (dropScheme u))))

/-- Attempt to match the tail of `re.search(r"/([^/]+)/p(?:$|/|\?|#)", path)`
just after an opening `/`: a nonempty run of non-`/` characters, then `/p`,
then end of string or one of `/`, `?`, `#`. -/
def matchAtSlash (rest : List Char) : Option (List Char) :=
  let seg := rest.takeWhile fun c => c ≠ '/'
  if seg.isEmpty then none
  else
    match rest.drop seg.length with
    | '/' :: 'p' :: rest3 =>
      match rest3 with
      | [] => some seg
      | c :: _ => if c = '/' || c = '?' || c = '#' then some seg else none
    | _ => none

/-- Leftmost match of `re.search(r"/([^/]+)/p(?:$|/|\?|#)", path)`,
returning the captured group. -/
def findSlug : List Char → Option (List Char)
  | [] => none
  | c :: rest =>
    if c = '/' then
      match matchAtSlash rest with
      | some g => some g
      | none => findSlug rest
    else findSlug rest

/-- Python `s.strip(c)`: remove every leading and trailing `c`. -/
def stripChar (c : Char) (cs : List Char) : List Char :=
  ((cs.dropWhile (· = c)).reverse.dropWhile (· = c)).reverse

/-- `path.strip("/").split("/")[-1]`: the final (possibly empty) path
segment after trimming slashes. -/
def lastSeg (cs : List Char) : List Char :=
  ((stripChar '/' cs).reverse.takeWhile fun c => c ≠ '/').reverse

/-- The slug of a lowercased path: the regex capture when the `/…/p`
pattern occurs, the final path segment otherwise. -/
def slugOfPath (path : List Char) : List Char :=
  let lp := path.map Char.toLower
  match findSlug lp with
  | some g => g
  | none => lastSeg lp

/-- `slug_from_pdp_url(u)`: the slug of `urlparse(u).path.lower()`.  (The
`except` branch of the Python function is unreachable in this model, where
URL parsing is total.) -/
def slug_from_pdp_url (u : List Char) : List Char := slugOfPath (urlPath u)

/-- `stable_key_from_url(u)`: the slug when nonempty, else the whole URL
lowercased (`slug or (u or "").lower()`). -/
def stable_key_from_url (u : List Char) : List Char :=
  let slug := slug_from_pdp_url u
  if slug.isEmpty then u.map Char.toLower else slug

/-- `stable_key_from_url` on `String`s. -/
def stableKeyStr (u : String) : String := ⟨stable_key_from_url u.data⟩

/-- Assemble a URL from a scheme, a host, a path and a query/fragment
suffix, the shape quantified over in the key-stability property. -/
def assembleUrl (scheme host path suffix : List Char) : List Char :=
  scheme ++ ':' :: '/' :: '/' :: host ++ path ++ suffix

/-- A snapshot of the two files `jdump` touches: the destination path and
the temporary file, each either absent or holding a byte string. -/
structure FSState where
  dest : Option (List ℕ)
  temp : Option (List ℕ)
deriving DecidableEq

/-- The sequence of filesystem states a run of `jdump` passes through,
starting from a destination holding `prior`: the temporary file grows
through every prefix of the serialized content (any of these states is
where a crash before the rename can strand the run), and the final atomic
rename installs the full content at the destination and removes the
temporary file.  The rename is `shutil.move` onto the same filesystem,
i.e. POSIX `os.rename`, which replaces the destination atomically. -/
def jdumpTrace (prior : Option (List ℕ)) (content : List ℕ) : List FSState :=
  { dest := prior, temp := none } ::
    ((List.range (content.length + 1)).map fun i =>
      { dest := prior, temp := some (content.take i) }) ++
    [{ dest := some content, temp := none }]

/-- One observable effect of the notification phase of `main`. -/
inductive Effect where
  | save (s : Snap)
  | send (k : String) (delivered : Bool)
  | warnNoWebhook (k : String)
deriving DecidableEq

/-- `send_discord` for the message of key `k`: with no webhook configured it
only warns; otherwise it attempts one delivery whose outcome `deliver k` is
logged and swallowed (`try/except` around the single `urlopen`), never
raised and never retried. -/
def send_discord (webhook : Option String) (deliver : String → Bool)
    (k : String) : Effect :=
  match webhook with
  | none => .warnNoWebhook k
  | some _ => .send k (deliver k)

/-- The effect trace of the tail of `main`: `jdump(new, SNAPSHOT_PATH)`
runs first, unconditionally, then one `send_discord` per changed key in
sorted order. -/
def mainEffects (protect : Bool) (webhook : Option String)
    (deliver : String → Bool) (old new : Snap) : List Effect :=
  Effect.save new ::
    (runMessages protect old new).map fun p => send_discord webhook deliver p.1

/-- The key a notification-attempt effect addresses (`none` for the save). -/
def attemptKey : Effect → Option String
  | .save _ => none
  | .send k _ => some k
  | .warnNoWebhook k => some k

/-- Keys of the `new_items` category. -/
def niKeys (d : DiffResult) : List String := d.new_items.map Prod.fst

/-- Keys of the `price_changes` category. -/
def pcKeys (d : DiffResult) : List String := d.price_changes.map Prod.fst

/-- Keys of the `restocks` category. -/
def rKeys (d : DiffResult) : List String := d.restocks.map Prod.fst

/-- Keys of the `stock_increases` category. -/
def siKeys (d : DiffResult) : List String := d.stock_increases.map Prod.fst

/-- The reason list the aggregation loops of `main` give one key: one label
per category the key occurs in, in the fixed precedence order `NewItem`,
`PriceChange`, `Restock`, `StockIncrease`. -/
def canonReasons (d : DiffResult) (k : String) : List Reason :=
  (if k ∈ niKeys d then [Reason.NewItem] else []) ++
  (if k ∈ pcKeys d then [Reason.PriceChange] else []) ++
  (if k ∈ rKeys d then [Reason.Restock] else []) ++
  (if k ∈ siKeys d then [Reason.StockIncrease] else [])

/-- The baseline-guard suppression condition in the spec's terms: guard
enabled, at least 20 products in the current snapshot, and the ratio of
new-item events to current products above 0.70. -/
def suppressCond (protect : Bool) (newCount totalAll : ℕ) : Prop :=
  protect = true ∧ 20 ≤ totalAll ∧ (7 : ℚ) / 10 < (newCount : ℚ) / (totalAll : ℚ)

/-- All per-size quantities of a record are `int`-convertible values. -/
def intSized (r : Rec) : Bool := (sizesD r).all fun p => p.2.toInt.isSome

/-- The integer value of an `int`-convertible quantity (0 otherwise). -/
def QtyV.intD (v : QtyV) : ℤ := v.toInt.getD 0

/-- Prior snapshot of the running example: one product, price 100, out of
stock, size M at quantity 0. -/
def oldEx : Snap :=
  [("a", { price := .num 100, in_stock := some false, sizes := some [("M", .int 0)] })]

/-- Current snapshot of the running example: the product repriced to 90,
back in stock with M at quantity 2, plus a brand-new product. -/
def newEx : Snap :=
  [("a", { price := .num 90, in_stock := some true, sizes := some [("M", .int 2)] }),
   ("b", { price := .num 50, in_stock := some true, sizes := some [("L", .int 1)] })]

/-- A snapshot with an undefined (NaN) price and an empty size map. -/
def nanEx : Snap :=
  [("a", { price := .nan, in_stock := some true, sizes := some [] })]

/-- The `parse_failed` placeholder record `scrape_all_products` stores when
every retry of a product page failed. -/
def parseFailedRec : Rec :=
  { price := .nan, in_stock := some false, sizes := some [] }

theorem lexLe_total (xs ys : List Char) : lexLe xs ys = true ∨ lexLe ys xs = true := by
  induction xs generalizing ys with
  | nil => left; rfl
  | cons x xs ih =>
    cases ys with
    | nil => right; rfl
    | cons y ys =>
      rcases lt_trichotomy x y with h | h | h
      · left; simp [lexLe, h]
      · subst h
        rcases ih ys with h2 | h2
        · left; simp [lexLe, lt_irrefl, h2]
        · right; simp [lexLe, lt_irrefl, h2]
      · right; simp [lexLe, h]

theorem lexLe_trans {xs ys zs : List Char} (h1 : lexLe xs ys = true)
    (h2 : lexLe ys zs = true) : lexLe xs zs = true := by
  induction xs generalizing ys zs with
  | nil => rfl
  | cons x xs ih =>
    cases ys with
    | nil => simp [lexLe] at h1
    | cons y ys =>
      cases zs with
      | nil => simp [lexLe] at h2
      | cons z zs =>
        simp only [lexLe] at h1 h2 ⊢
        rcases lt_trichotomy x y with hxy | hxy | hxy
        · rcases lt_trichotomy y z with hyz | hyz | hyz
          · simp [hxy.trans hyz]
          · subst hyz; simp [hxy]
          · simp [lt_asymm hyz, hyz] at h2
        · subst hxy
          simp only [lt_irrefl, if_false] at h1 h2 ⊢
          by_cases hxz : x < z
          · simp [hxz]
          · simp only [hxz, if_false] at h2 ⊢
            by_cases hzx : z < x
            · simp [hzx] at h2
            · simp only [hzx, if_false] at h2 ⊢
              exact ih h1 h2
        · simp [lt_asymm hxy, hxy] at h1

instance : IsTotal String strLeP := ⟨fun a b => lexLe_total a.data b.data⟩

instance : IsTrans String strLeP := ⟨fun _ _ _ h1 h2 => lexLe_trans h1 h2⟩

theorem mem_sortedSet {k : String} {l : List String} : k ∈ sortedSet l ↔ k ∈ l := by
  unfold sortedSet
  rw [(List.perm_insertionSort strLeP l.dedup).mem_iff, List.mem_dedup]

theorem nodup_sortedSet (l : List String) : (sortedSet l).Nodup :=
  ((List.perm_insertionSort strLeP l.dedup).nodup_iff).mpr l.nodup_dedup

theorem sorted_sortedSet (l : List String) : List.Sorted strLeP (sortedSet l) :=
  List.sorted_insertionSort strLeP l.dedup

theorem lookup_eq_none_iff {α β : Type} [BEq α] [LawfulBEq α]
    {l : List (α × β)} {k : α} : List.lookup k l = none ↔ k ∉ l.map Prod.fst := by
  induction l with
  | nil => simp
  | cons p l ih =>
    by_cases h : k = p.1
    · subst h; simp [List.lookup]
    · simp only [List.lookup, beq_eq_false_iff_ne, ne_eq, h, not_false_eq_true,
        beq_iff_eq, if_neg, List.map_cons, List.mem_cons]
      rw [show (k == p.1) = false by simp [h]]
      simpa [h] using ih

theorem lookup_mem {α β : Type} [BEq α] [LawfulBEq α]
    {l : List (α × β)} {k : α} {b : β} (h : List.lookup k l = some b) : (k, b) ∈ l := by
  induction l with
  | nil => simp at h
  | cons p l ih =>
    obtain ⟨a, c⟩ := p
    rw [List.lookup_cons] at h
    by_cases hk : k = a
    · subst hk
      simp only [beq_self_eq_true] at h
      cases h
      exact List.mem_cons_self _ _
    · rw [show (k == a) = false by simp [hk]] at h
      exact List.mem_cons_of_mem _ (ih h)

theorem lookup_of_mem_nodup {α β : Type} [BEq α] [LawfulBEq α]
    {l : List (α × β)} {k : α} {b : β} (hn : (l.map Prod.fst).Nodup)
    (h : (k, b) ∈ l) : List.lookup k l = some b := by
  induction l with
  | nil => simp at h
  | cons p l ih =>
    obtain ⟨a, c⟩ := p
    simp only [List.map_cons, List.nodup_cons] at hn
    rcases List.mem_cons.mp h with heq | hmem
    · cases heq; exact List.lookup_cons_self
    · have hk : k ≠ a := by
        rintro rfl
        exact hn.1 (List.mem_map.mpr ⟨(k, b), hmem, rfl⟩)
      rw [List.lookup_cons, show (k == a) = false by simp [hk]]
      exact ih hn.2 hmem

theorem lookup_isSome_of_mem_keys {α β : Type} [BEq α] [LawfulBEq α]
    {l : List (α × β)} {k : α} (h : k ∈ l.map Prod.fst) :
    ∃ b, List.lookup k l = some b ∧ (k, b) ∈ l := by
  cases hl : List.lookup k l with
  | none => exact absurd (lookup_eq_none_iff.mp hl) (by simpa using h)
  | some b => exact ⟨b, rfl, lookup_mem hl⟩

theorem getRec_mem {s : Snap} {k : String} (h : k ∈ keysOf s) : (k, getRec s k) ∈ s := by
  obtain ⟨b, hb, hmem⟩ := lookup_isSome_of_mem_keys (by simpa [keysOf] using h)
  simpa [getRec, hb] using hmem

theorem blt_iff (a b : ℚ) : Rat.blt a b = true ↔ a < b := Iff.rfl

theorem ratAbs_eq (q : ℚ) : ratAbs q = |q| := by
  unfold ratAbs
  split
  · exact (abs_of_neg (by assumption)).symm
  · exact (abs_of_nonneg (not_lt.mp (by assumption))).symm

theorem ratSub_eq (a b : ℚ) : ratSub a b = a - b := by
  have ha : (a.den : ℚ) ≠ 0 := by exact_mod_cast a.den_nz
  have hb : (b.den : ℚ) ≠ 0 := by exact_mod_cast b.den_nz
  unfold ratSub
  rw [Rat.mkRat_eq_div]
  push_cast
  conv_rhs => rw [← Rat.num_div_den a, ← Rat.num_div_den b]
  field_simp
  ring

theorem hundredth_eq : (mkRat 1 100 : ℚ) = 1 / 100 := by
  rw [Rat.mkRat_eq_div]; norm_num

theorem priceFires_iff (o n : Rec) :
    priceFires o n = true ↔
      ∃ a b, o.price = .num a ∧ n.price = .num b ∧ (1 : ℚ) / 100 ≤ |a - b| := by
  obtain ⟨op, ost, osz⟩ := o
  obtain ⟨np, nst, nsz⟩ := n
  cases op <;> cases np <;>
    simp [priceFires, ratSub_eq, ratAbs_eq, hundredth_eq]

theorem newRatioHigh_iff {t : ℕ} (n : ℕ) (ht : t ≠ 0) :
    newRatioHigh n t = true ↔ (7 : ℚ) / 10 < (n : ℚ) / (t : ℚ) := by
  unfold newRatioHigh
  rw [blt_iff, Rat.mkRat_eq_div, Rat.mkRat_eq_div]
  norm_num

theorem mem_bothKeys {old new : Snap} {k : String} :
    k ∈ bothKeys old new ↔ k ∈ keysOf new ∧ k ∈ keysOf old := by
  unfold bothKeys
  rw [mem_sortedSet, List.mem_filter]
  simp [List.contains, List.elem_iff]

theorem mem_newOnlyKeys {old new : Snap} {k : String} :
    k ∈ newOnlyKeys old new ↔ k ∈ keysOf new ∧ k ∉ keysOf old := by
  unfold newOnlyKeys
  rw [mem_sortedSet, List.mem_filter]
  simp [List.contains, List.elem_iff]

theorem sizeIncrease_self (v : QtyV) : sizeIncrease v v = none := by
  cases v with
  | int n => simp [sizeIncrease, QtyV.toInt, lt_irrefl]
  | raw t => cases t <;> simp [sizeIncrease, QtyV.toInt, QtyV.truthy]

theorem increasedSizes_self (r : Rec) (h : recWF r) : increasedSizes r r = [] := by
  unfold increasedSizes
  rw [List.filterMap_eq_nil_iff]
  intro p hp
  have hq : qtyD (sizesD r) p.1 = p.2 := by
    unfold qtyD
    rw [lookup_of_mem_nodup h (by simpa using hp)]
    rfl
  rw [hq, sizeIncrease_self]
  rfl

theorem priceFires_self (r : Rec) : priceFires r r = false := by
  cases h : priceFires r r
  · rfl
  · obtain ⟨a, b, ha, hb, hle⟩ := (priceFires_iff r r).mp h
    rw [ha] at hb
    cases hb
    rw [sub_self, abs_zero] at hle
    norm_num at hle

theorem restockFires_self (r : Rec) : restockFires r r = false := by
  unfold restockFires
  cases inStockD r <;> rfl

/-- C2: for every snapshot `S` (a Python dict: distinct keys, per-record
distinct sizes), `compute_diff(S, S)` returns zero events in every category,
including in the presence of NaN prices and empty size maps. -/
theorem spec_C2 (s : Snap) (hs : snapWF s) :
    compute_diff s s = { new_items := [], price_changes := [], restocks := [],
                         stock_increases := [] } := by
  have hrec : ∀ k ∈ bothKeys s s, recWF (getRec s k) := fun k hk =>
    hs.2 _ (getRec_mem (mem_bothKeys.mp hk).1)
  have hnew : newOnlyKeys s s = [] := by
    have h0 : (keysOf s).filter (fun k => !(keysOf s).contains k) = [] := by
      rw [List.filter_eq_nil_iff]
      intro a ha
      simp [List.contains, List.elem_iff, ha]
    unfold newOnlyKeys
    rw [h0]
    rfl
  have hf1 : (bothKeys s s).filter
      (fun k => priceFires (getRec s k) (getRec s k)) = [] :=
    List.filter_eq_nil_iff.mpr (fun k _ => by simp [priceFires_self])
  have hf2 : (bothKeys s s).filter
      (fun k => restockFires (getRec s k) (getRec s k)) = [] :=
    List.filter_eq_nil_iff.mpr (fun k _ => by simp [restockFires_self])
  have hf3 : (bothKeys s s).filter
      (fun k => !(increasedSizes (getRec s k) (getRec s k)).isEmpty) = [] :=
    List.filter_eq_nil_iff.mpr (fun k hk => by
      simp [increasedSizes_self _ (hrec k hk)])
  unfold compute_diff
  rw [hnew, hf1, hf2, hf3]
  rfl

/-- Witness for C2 at a concrete snapshot holding a NaN price and an empty
size map. -/
theorem spec_C2_witness :
    compute_diff nanEx nanEx = { new_items := [], price_changes := [],
                                 restocks := [], stock_increases := [] } :=
  spec_C2 nanEx (by decide)

theorem restockFires_iff (o n : Rec) :
    restockFires o n = true ↔ inStockD o = false ∧ inStockD n = true := by
  unfold restockFires
  cases inStockD o <;> cases inStockD n <;> simp

theorem priceFires_of_undef {o : Rec} (n : Rec) (h : ∀ a, o.price ≠ .num a) :
    priceFires o n = false ∧ priceFires n o = false := by
  constructor
  · cases hp : priceFires o n
    · rfl
    · obtain ⟨a, b, ha, _, _⟩ := (priceFires_iff o n).mp hp
      exact absurd ha (h a)
  · cases hp : priceFires n o
    · rfl
    · obtain ⟨a, b, _, hb, _⟩ := (priceFires_iff n o).mp hp
      exact absurd hb (h b)

/-- C3: a `PriceChange` event for a key present in both snapshots fires iff
both prices are defined numbers and their absolute difference is at least
0.01; a delta of 0.009 does not fire, a delta of 0.01 does, and an undefined
price on either side never fires in either direction. -/
theorem spec_C3 (old new : Snap) (k : String) (o n : Rec) :
    ((k, o, n) ∈ (compute_diff old new).price_changes ↔
      k ∈ keysOf old ∧ k ∈ keysOf new ∧ o = getRec old k ∧ n = getRec new k ∧
        ∃ a b, o.price = .num a ∧ n.price = .num b ∧ (1 : ℚ) / 100 ≤ |a - b|)
    ∧ (∀ (o' n' : Rec) (a : ℚ), o'.price = .num a → n'.price = .num (a + 9 / 1000) →
        priceFires o' n' = false)
    ∧ (∀ (o' n' : Rec) (a : ℚ), o'.price = .num a → n'.price = .num (a + 1 / 100) →
        priceFires o' n' = true)
    ∧ (∀ o' n' : Rec, (∀ a, o'.price ≠ .num a) →
        priceFires o' n' = false ∧ priceFires n' o' = false) := by
  refine ⟨?_, ?_, ?_, ?_⟩
  · simp only [compute_diff, List.mem_map, List.mem_filter]
    constructor
    · rintro ⟨k', ⟨hk', hfire⟩, heq⟩
      obtain ⟨rfl, rfl, rfl⟩ : k' = k ∧ getRec old k' = o ∧ getRec new k' = n := by
        injection heq with h1 h2
        injection h2 with h2 h3
        exact ⟨h1, h2, h3⟩
      exact ⟨(mem_bothKeys.mp hk').2, (mem_bothKeys.mp hk').1, rfl, rfl,
        (priceFires_iff _ _).mp hfire⟩
    · rintro ⟨hko, hkn, rfl, rfl, hex⟩
      exact ⟨k, ⟨mem_bothKeys.mpr ⟨hkn, hko⟩, (priceFires_iff _ _).mpr hex⟩, rfl⟩
  · intro o' n' a ha hb
    cases h : priceFires o' n'
    · rfl
    · obtain ⟨a', b', ha', hb', hle⟩ := (priceFires_iff o' n').mp h
      rw [ha] at ha'
      cases ha'
      rw [hb] at hb'
      cases hb'
      rw [abs_sub_comm, add_sub_cancel_left,
        abs_of_nonneg (by norm_num : (0:ℚ) ≤ 9 / 1000)] at hle
      norm_num at hle
  · intro o' n' a ha hb
    refine (priceFires_iff o' n').mpr ⟨a, a + 1 / 100, ha, hb, ?_⟩
    rw [abs_sub_comm, add_sub_cancel_left,
      abs_of_nonneg (by norm_num : (0:ℚ) ≤ 1 / 100)]
  · intro o' n' h
    exact priceFires_of_undef n' h

/-- Witness for C3: a 0.009 delta does not fire. -/
theorem spec_C3_witness :
    priceFires { price := .num 100, in_stock := none, sizes := none }
      { price := .num (100 + 9 / 1000), in_stock := none, sizes := none } = false :=
  (spec_C3 [] [] "a" emptyRec emptyRec).2.1 _ _ 100 rfl rfl

/-- C4: a `Restock` event for a key present in both snapshots fires iff the
prior record is out of stock and the current record is in stock; the
transitions true→false, true→true and false→false never fire. -/
theorem spec_C4 (old new : Snap) (k : String) (o n : Rec) :
    ((k, o, n) ∈ (compute_diff old new).restocks ↔
      k ∈ keysOf old ∧ k ∈ keysOf new ∧ o = getRec old k ∧ n = getRec new k ∧
        inStockD o = false ∧ inStockD n = true)
    ∧ (∀ o' n' : Rec, inStockD o' = true ∨ inStockD n' = false →
        restockFires o' n' = false) := by
  constructor
  · simp only [compute_diff, List.mem_map, List.mem_filter]
    constructor
    · rintro ⟨k', ⟨hk', hfire⟩, heq⟩
      obtain ⟨rfl, rfl, rfl⟩ : k' = k ∧ getRec old k' = o ∧ getRec new k' = n := by
        injection heq with h1 h2
        injection h2 with h2 h3
        exact ⟨h1, h2, h3⟩
      exact ⟨(mem_bothKeys.mp hk').2, (mem_bothKeys.mp hk').1, rfl, rfl,
        (restockFires_iff _ _).mp hfire⟩
    · rintro ⟨hko, hkn, rfl, rfl, hre⟩
      exact ⟨k, ⟨mem_bothKeys.mpr ⟨hkn, hko⟩, (restockFires_iff _ _).mpr hre⟩, rfl⟩
  · intro o' n' h
    unfold restockFires
    rcases h with h | h <;> rw [h] <;> simp

/-- Witness for C4 on the running example: the true→true transition of a
stocked record never fires. -/
theorem spec_C4_witness :
    restockFires { price := .nan, in_stock := some true, sizes := none }
      { price := .nan, in_stock := some true, sizes := none } = false :=
  (spec_C4 [] [] "a" emptyRec emptyRec).2 _ _ (Or.inl rfl)

theorem mem_increasedSizes {o n : Rec} {size : String} {q : ℤ} :
    (size, q) ∈ increasedSizes o n ↔
      ∃ nq, (size, nq) ∈ sizesD n ∧
        sizeIncrease (qtyD (sizesD o) size) nq = some q := by
  unfold increasedSizes
  rw [List.mem_filterMap]
  constructor
  · rintro ⟨p, hp, hsome⟩
    rcases hinc : sizeIncrease (qtyD (sizesD o) p.1) p.2 with _ | v
    · rw [hinc] at hsome
      exact Option.noConfusion hsome
    · rw [hinc] at hsome
      injection hsome with h
      injection h with h1 h2
      subst h1
      subst h2
      exact ⟨p.2, by simpa using hp, hinc⟩
  · rintro ⟨nq, hmem, hinc⟩
    exact ⟨(size, nq), hmem, by simp [hinc]⟩

theorem qtyD_int_of_intSized {r : Rec} (h : intSized r = true) (size : String) :
    QtyV.int (qtyD (sizesD r) size).intD = qtyD (sizesD r) size := by
  unfold qtyD
  cases hl : List.lookup size (sizesD r) with
  | none => rfl
  | some v =>
    have hv : v.toInt.isSome := by
      have := (List.all_eq_true.mp h) (size, v) (lookup_mem hl)
      simpa using this
    cases v with
    | int m => rfl
    | raw t => simp [QtyV.toInt] at hv

/-- C5: for a key present in both snapshots whose quantity maps hold
integer quantities, a `StockIncrease` event fires iff some size of the
current record has a strictly larger quantity than the prior record's
quantity for that size (0 when previously unseen); the recorded
increased-size map holds exactly the increased sizes, each with its new
quantity. -/
theorem spec_C5 (old new : Snap) (k : String)
    (hio : intSized (getRec old k) = true) (hin : intSized (getRec new k) = true) :
    ((∃ o n inc, (k, o, n, inc) ∈ (compute_diff old new).stock_increases) ↔
      k ∈ keysOf old ∧ k ∈ keysOf new ∧
        ∃ size q, (size, QtyV.int q) ∈ sizesD (getRec new k) ∧
          (qtyD (sizesD (getRec old k)) size).intD < q)
    ∧ (∀ o n inc, (k, o, n, inc) ∈ (compute_diff old new).stock_increases →
        o = getRec old k ∧ n = getRec new k ∧ inc = increasedSizes o n)
    ∧ (∀ size q, (size, q) ∈ increasedSizes (getRec old k) (getRec new k) ↔
        ((size, QtyV.int q) ∈ sizesD (getRec new k) ∧
          (qtyD (sizesD (getRec old k)) size).intD < q)) := by
  have hchar : ∀ size q, (size, q) ∈ increasedSizes (getRec old k) (getRec new k) ↔
      ((size, QtyV.int q) ∈ sizesD (getRec new k) ∧
        (qtyD (sizesD (getRec old k)) size).intD < q) := by
    intro size q
    rw [mem_increasedSizes]
    constructor
    · rintro ⟨nq, hmem, hinc⟩
      have hnq : nq.toInt.isSome := by
        have := (List.all_eq_true.mp hin) (size, nq) hmem
        simpa using this
      cases nq with
      | raw t => simp [QtyV.toInt] at hnq
      | int j =>
        rw [← qtyD_int_of_intSized hio size] at hinc
        simp only [sizeIncrease, QtyV.toInt] at hinc
        split at hinc
        · cases hinc
          exact ⟨hmem, by assumption⟩
        · simp at hinc
    · rintro ⟨hmem, hlt⟩
      refine ⟨QtyV.int q, hmem, ?_⟩
      rw [← qtyD_int_of_intSized hio size]
      simp only [sizeIncrease, QtyV.toInt]
      rw [if_pos hlt]
  refine ⟨?_, ?_, hchar⟩
  · constructor
    · rintro ⟨o, n, inc, hmem⟩
      simp only [compute_diff, List.mem_map, List.mem_filter] at hmem
      obtain ⟨k', ⟨hk', hne⟩, heq⟩ := hmem
      obtain ⟨h1, h2, h3, h4⟩ :
          k' = k ∧ getRec old k' = o ∧ getRec new k' = n ∧
            increasedSizes (getRec old k') (getRec new k') = inc := by
        injection heq with ha hb
        injection hb with hb hc
        injection hc with hc hd
        exact ⟨ha, hb, hc, hd⟩
      have h1s := h1.symm
      subst h1s
      subst h2
      subst h3
      subst h4
      rcases hne' : increasedSizes (getRec old k) (getRec new k) with _ | ⟨⟨size, q⟩, rest⟩
      · rw [hne', List.isEmpty_nil] at hne
        simp at hne
      · have : (size, q) ∈ increasedSizes (getRec old k) (getRec new k) := by
          rw [hne']
          exact List.mem_cons_self _ _
        obtain ⟨hm, hlt⟩ := (hchar size q).mp this
        exact ⟨(mem_bothKeys.mp hk').2, (mem_bothKeys.mp hk').1, size, q, hm, hlt⟩
    · rintro ⟨hko, hkn, size, q, hm, hlt⟩
      refine ⟨getRec old k, getRec new k, increasedSizes (getRec old k) (getRec new k), ?_⟩
      simp only [compute_diff, List.mem_map, List.mem_filter]
      refine ⟨k, ⟨mem_bothKeys.mpr ⟨hkn, hko⟩, ?_⟩, rfl⟩
      have : (size, q) ∈ increasedSizes (getRec old k) (getRec new k) :=
        (hchar size q).mpr ⟨hm, hlt⟩
      rcases h : increasedSizes (getRec old k) (getRec new k) with _ | _
      · rw [h] at this
        simp at this
      · rfl
  · intro o n inc hmem
    simp only [compute_diff, List.mem_map, List.mem_filter] at hmem
    obtain ⟨k', ⟨hk', hne⟩, heq⟩ := hmem
    injection heq with h1 h2
    injection h2 with h2 h3
    injection h3 with h3 h4
    subst h1
    exact ⟨h2.symm, h3.symm, by rw [← h2, ← h3, ← h4]⟩

/-- Witness for C5: on the running example, size M rose from 0 to 2. -/
theorem spec_C5_witness :
    (∃ o n inc, ("a", o, n, inc) ∈ (compute_diff oldEx newEx).stock_increases) ↔
      "a" ∈ keysOf oldEx ∧ "a" ∈ keysOf newEx ∧
        ∃ size q, (size, QtyV.int q) ∈ sizesD (getRec newEx "a") ∧
          (qtyD (sizesD (getRec oldEx "a")) size).intD < q :=
  (spec_C5 oldEx newEx "a" (by decide) (by decide)).1

/-- C10: `compute_diff` is total on partial records and degrades them as the
getter defaults dictate: a price that is missing, `None`, NaN or non-numeric
never fires a price change in either direction; a record lacking the
`in_stock` key behaves exactly like one stocked `False`; a missing or `None`
size map behaves exactly like an empty one; a per-size quantity that fails
integer conversion falls back to the truthiness comparison, recording
quantity 1; and the `parse_failed` placeholder flows through `compute_diff`
without producing spurious events.  (In this embedding every function is
total, so "never raises" holds by construction.) -/
theorem spec_C10 :
    (∀ o n : Rec, o.price = .noneV ∨ o.price = .nan ∨ o.price = .other →
      priceFires o n = false ∧ priceFires n o = false)
    ∧ (∀ o n : Rec, o.in_stock = none →
        restockFires o n = restockFires { o with in_stock := some false } n ∧
        restockFires n o = restockFires n { o with in_stock := some false })
    ∧ (∀ o n : Rec, o.sizes = none →
        increasedSizes o n = increasedSizes { o with sizes := some [] } n ∧
        increasedSizes n o = increasedSizes n { o with sizes := some [] })
    ∧ (∀ (oq : QtyV) (t : Bool), sizeIncrease oq (.raw t) =
        if t && !oq.truthy then some 1 else none)
    ∧ (∀ (t : Bool) (m : ℤ), sizeIncrease (.raw t) (.int m) =
        if (QtyV.int m).truthy && !t then some 1 else none)
    ∧ compute_diff [("k", emptyRec)] [("k", parseFailedRec)] =
        { new_items := [], price_changes := [], restocks := [],
          stock_increases := [] } := by
  refine ⟨?_, ?_, ?_, ?_, ?_, by decide⟩
  · intro o n h
    apply priceFires_of_undef
    rintro a ha
    rcases h with h | h | h <;> rw [h] at ha <;> cases ha
  · intro o n h
    constructor <;> simp [restockFires, inStockD, h]
  · intro o n h
    constructor <;> simp [increasedSizes, sizesD, h]
  · intro oq t
    rfl
  · intro t m
    rfl

/-- Witness for C10: a record lacking `in_stock` compared against a stocked
record behaves like an out-of-stock record. -/
theorem spec_C10_witness :
    restockFires { price := .nan, in_stock := none, sizes := none }
        { price := .nan, in_stock := some true, sizes := none } =
      restockFires { price := .nan, in_stock := some false, sizes := none }
        { price := .nan, in_stock := some true, sizes := none } :=
  (spec_C10.2.1 { price := .nan, in_stock := none, sizes := none }
    { price := .nan, in_stock := some true, sizes := none } rfl).1

theorem reasonsAt_cons_ne {a : String} {v : List Reason} {m : RMap} {k : String}
    (h : k ≠ a) : reasonsAt ((a, v) :: m) k = reasonsAt m k := by
  rw [reasonsAt, List.lookup_cons, show (k == a) = false by simp [h]]
  rfl

theorem reasonsAt_cons_self {a : String} {v : List Reason} {m : RMap} :
    reasonsAt ((a, v) :: m) a = v := by
  rw [reasonsAt, List.lookup_cons, show (a == a) = true by simp]
  rfl

theorem lookup_bump (m : RMap) (k' : String) (r : Reason) (k : String)
    (hmem : k' ∈ m.map Prod.fst) :
    reasonsAt (m.map fun p => if p.1 = k' then (p.1, p.2 ++ [r]) else p) k =
      if k = k' then reasonsAt m k ++ [r] else reasonsAt m k := by
  induction m with
  | nil => simp at hmem
  | cons p m ih =>
    obtain ⟨a, v⟩ := p
    rw [List.map_cons]
    by_cases hak : a = k'
    · subst hak
      rw [show (if ((a, v).1 = a) then ((a, v).1, (a, v).2 ++ [r]) else (a, v)) =
          (a, v ++ [r]) from by simp]
      by_cases hka : k = a
      · subst hka
        rw [reasonsAt_cons_self, reasonsAt_cons_self, if_pos rfl]
      · rw [reasonsAt_cons_ne hka, reasonsAt_cons_ne hka]
        by_cases hk'm : a ∈ m.map Prod.fst
        · exact ih hk'm
        · rw [show (m.map fun p => if p.1 = a then (p.1, p.2 ++ [r]) else p) = m from by
            rw [List.map_congr_left (g := id) fun q hq => by
              rw [if_neg fun h => hk'm (by rw [← h]; exact List.mem_map.mpr ⟨q, hq, rfl⟩)]
              rfl]
            exact List.map_id m]
          rw [if_neg hka]
    · rw [show (if ((a, v).1 = k') then ((a, v).1, (a, v).2 ++ [r]) else (a, v)) =
          (a, v) from by simp [hak]]
      have hmem' : k' ∈ m.map Prod.fst := by
        rcases List.mem_map.mp hmem with ⟨q, hq, hfst⟩
        rcases List.mem_cons.mp hq with heq | hq'
        · exact absurd (by rw [← hfst, heq]) (Ne.symm hak)
        · exact List.mem_map.mpr ⟨q, hq', hfst⟩
      by_cases hka : k = a
      · have hkk' : k ≠ k' := by rw [hka]; exact hak
        rw [if_neg hkk']
        subst hka
        rw [reasonsAt_cons_self, reasonsAt_cons_self]
      · rw [reasonsAt_cons_ne hka, reasonsAt_cons_ne hka]
        exact ih hmem'

theorem reasonsAt_addReason (m : RMap) (k' : String) (r : Reason) (k : String) :
    reasonsAt (addReason m k' r) k =
      if k = k' then reasonsAt m k ++ [r] else reasonsAt m k := by
  unfold addReason
  by_cases hmem : k' ∈ m.map Prod.fst
  · rw [if_pos hmem]
    exact lookup_bump m k' r k hmem
  · rw [if_neg hmem]
    by_cases hk : k = k'
    · subst hk
      have hnone : List.lookup k m = none := lookup_eq_none_iff.mpr hmem
      rw [if_pos rfl, reasonsAt, List.lookup_append, hnone, reasonsAt, hnone]
      simp [List.lookup_cons]
    · rw [if_neg hk, reasonsAt, List.lookup_append, reasonsAt]
      cases hl : List.lookup k m with
      | none => simp [List.lookup_cons, show (k == k') = false by simp [hk]]
      | some v => rfl

theorem keys_addReason (m : RMap) (k' : String) (r : Reason) (k : String) :
    k ∈ (addReason m k' r).map Prod.fst ↔ k ∈ m.map Prod.fst ∨ k = k' := by
  unfold addReason
  by_cases hmem : k' ∈ m.map Prod.fst
  · rw [if_pos hmem, List.map_map]
    have : (Prod.fst ∘ fun p : String × List Reason =>
        if p.1 = k' then (p.1, p.2 ++ [r]) else p) = Prod.fst := by
      funext p
      by_cases h : p.1 = k' <;> simp [h]
    rw [this]
    constructor
    · exact Or.inl
    · rintro (h | rfl)
      · exact h
      · exact hmem
  · rw [if_neg hmem]
    simp

theorem keysNodup_addReason (m : RMap) (k' : String) (r : Reason)
    (h : (m.map Prod.fst).Nodup) : ((addReason m k' r).map Prod.fst).Nodup := by
  unfold addReason
  by_cases hmem : k' ∈ m.map Prod.fst
  · rw [if_pos hmem, List.map_map]
    have heq : (Prod.fst ∘ fun p : String × List Reason =>
        if p.1 = k' then (p.1, p.2 ++ [r]) else p) = Prod.fst := by
      funext p
      by_cases hpk : p.1 = k' <;> simp [hpk]
    rw [heq]
    exact h
  · rw [if_neg hmem]
    simp only [List.map_append, List.map_cons, List.map_nil]
    exact List.nodup_append.mpr ⟨h, List.nodup_singleton k', by simpa using hmem⟩

theorem valsNE_addReason (m : RMap) (k' : String) (r : Reason)
    (h : ∀ p ∈ m, p.2 ≠ []) : ∀ p ∈ addReason m k' r, p.2 ≠ [] := by
  unfold addReason
  by_cases hmem : k' ∈ m.map Prod.fst
  · rw [if_pos hmem]
    rintro p hp
    obtain ⟨q, hq, hfq⟩ := List.mem_map.mp hp
    by_cases hqk : q.1 = k'
    · rw [if_pos hqk] at hfq
      rw [← hfq]
      simp
    · rw [if_neg hqk] at hfq
      rw [← hfq]
      exact h q hq
  · rw [if_neg hmem]
    intro p hp
    rcases List.mem_append.mp hp with hp | hp
    · exact h p hp
    · rcases List.mem_singleton.mp hp with rfl
      simp

theorem reasonsAt_foldl_addReason {β : Type} (L : List (String × β)) (r : Reason)
    (m : RMap) (hL : (L.map Prod.fst).Nodup) (k : String) :
    reasonsAt (L.foldl (fun acc p => addReason acc p.1 r) m) k =
      if k ∈ L.map Prod.fst then reasonsAt m k ++ [r] else reasonsAt m k := by
  induction L generalizing m with
  | nil => simp
  | cons p L ih =>
    rw [List.foldl_cons]
    simp only [List.map_cons, List.nodup_cons] at hL
    rw [ih _ hL.2]
    rw [reasonsAt_addReason]
    by_cases hkL : k ∈ L.map Prod.fst
    · have hkp : ¬ k = p.1 := fun h => hL.1 (h ▸ hkL)
      rw [if_pos hkL, if_neg hkp, if_pos (by simp [hkL])]
    · rw [if_neg hkL]
      by_cases hkp : k = p.1
      · rw [if_pos hkp, if_pos (by simp [hkp])]
      · rw [if_neg hkp, if_neg (by simp [hkp, hkL])]

theorem keys_foldl_addReason {β : Type} (L : List (String × β)) (r : Reason)
    (m : RMap) (k : String) :
    (k ∈ (L.foldl (fun acc p => addReason acc p.1 r) m).map Prod.fst ↔
      k ∈ m.map Prod.fst ∨ k ∈ L.map Prod.fst) := by
  induction L generalizing m with
  | nil => simp
  | cons p L ih =>
    rw [List.foldl_cons, ih, keys_addReason]
    simp only [List.map_cons, List.mem_cons]
    tauto

theorem keysNodup_foldl_addReason {β : Type} (L : List (String × β)) (r : Reason)
    (m : RMap) (h : (m.map Prod.fst).Nodup) :
    ((L.foldl (fun acc p => addReason acc p.1 r) m).map Prod.fst).Nodup := by
  induction L generalizing m with
  | nil => exact h
  | cons p L ih => exact ih _ (keysNodup_addReason m p.1 r h)

theorem valsNE_foldl_addReason {β : Type} (L : List (String × β)) (r : Reason)
    (m : RMap) (h : ∀ p ∈ m, p.2 ≠ []) :
    ∀ p ∈ L.foldl (fun acc p => addReason acc p.1 r) m, p.2 ≠ [] := by
  induction L generalizing m with
  | nil => exact h
  | cons p L ih => exact ih _ (valsNE_addReason m p.1 r h)

theorem niKeys_compute (old new : Snap) :
    niKeys (compute_diff old new) = newOnlyKeys old new := by
  simp only [niKeys, compute_diff, List.map_map]
  exact (List.map_congr_left fun a _ => rfl).trans (List.map_id _)

theorem pcKeys_compute (old new : Snap) :
    pcKeys (compute_diff old new) =
      (bothKeys old new).filter fun k => priceFires (getRec old k) (getRec new k) := by
  simp only [pcKeys, compute_diff, List.map_map]
  exact (List.map_congr_left fun a _ => rfl).trans (List.map_id _)

theorem rKeys_compute (old new : Snap) :
    rKeys (compute_diff old new) =
      (bothKeys old new).filter fun k => restockFires (getRec old k) (getRec new k) := by
  simp only [rKeys, compute_diff, List.map_map]
  exact (List.map_congr_left fun a _ => rfl).trans (List.map_id _)

theorem siKeys_compute (old new : Snap) :
    siKeys (compute_diff old new) =
      (bothKeys old new).filter fun k =>
        !(increasedSizes (getRec old k) (getRec new k)).isEmpty := by
  simp only [siKeys, compute_diff, List.map_map]
  exact (List.map_congr_left fun a _ => rfl).trans (List.map_id _)

theorem catKeysNodup (old new : Snap) :
    (niKeys (compute_diff old new)).Nodup ∧ (pcKeys (compute_diff old new)).Nodup ∧
      (rKeys (compute_diff old new)).Nodup ∧ (siKeys (compute_diff old new)).Nodup := by
  refine ⟨?_, ?_, ?_, ?_⟩
  · rw [niKeys_compute]; exact nodup_sortedSet _
  · rw [pcKeys_compute]; exact (nodup_sortedSet _).filter _
  · rw [rKeys_compute]; exact (nodup_sortedSet _).filter _
  · rw [siKeys_compute]; exact (nodup_sortedSet _).filter _

theorem reasonsAt_build (d : DiffResult) (h1 : (niKeys d).Nodup)
    (h2 : (pcKeys d).Nodup) (h3 : (rKeys d).Nodup) (h4 : (siKeys d).Nodup)
    (k : String) : reasonsAt (buildReasonsMap d) k = canonReasons d k := by
  unfold buildReasonsMap canonReasons
  unfold niKeys at h1
  unfold pcKeys at h2
  unfold rKeys at h3
  unfold siKeys at h4
  unfold niKeys pcKeys rKeys siKeys
  rw [reasonsAt_foldl_addReason _ _ _ h4, reasonsAt_foldl_addReason _ _ _ h3,
    reasonsAt_foldl_addReason _ _ _ h2, reasonsAt_foldl_addReason _ _ _ h1]
  have hempty : reasonsAt ([] : RMap) k = [] := rfl
  by_cases c1 : k ∈ d.new_items.map Prod.fst <;>
    by_cases c2 : k ∈ d.price_changes.map Prod.fst <;>
    by_cases c3 : k ∈ d.restocks.map Prod.fst <;>
    by_cases c4 : k ∈ d.stock_increases.map Prod.fst <;>
    simp [c1, c2, c3, c4, hempty]

theorem keys_build (d : DiffResult) (k : String) :
    k ∈ (buildReasonsMap d).map Prod.fst ↔
      k ∈ niKeys d ∨ k ∈ pcKeys d ∨ k ∈ rKeys d ∨ k ∈ siKeys d := by
  unfold buildReasonsMap niKeys pcKeys rKeys siKeys
  rw [keys_foldl_addReason, keys_foldl_addReason, keys_foldl_addReason,
    keys_foldl_addReason]
  simp only [List.map_nil, List.not_mem_nil, false_or]
  tauto

theorem keysNodup_build (d : DiffResult) : ((buildReasonsMap d).map Prod.fst).Nodup := by
  unfold buildReasonsMap
  exact keysNodup_foldl_addReason _ _ _ (keysNodup_foldl_addReason _ _ _
    (keysNodup_foldl_addReason _ _ _ (keysNodup_foldl_addReason _ _ _ (by simp))))

theorem valsNE_build (d : DiffResult) : ∀ p ∈ buildReasonsMap d, p.2 ≠ [] := by
  unfold buildReasonsMap
  exact valsNE_foldl_addReason _ _ _ (valsNE_foldl_addReason _ _ _
    (valsNE_foldl_addReason _ _ _ (valsNE_foldl_addReason _ _ _ (by simp))))

theorem filterMap_map_sublist {α β : Type} (f : α → Option α) (g : α → β)
    (hf : ∀ x y, f x = some y → g y = g x) (l : List α) :
    List.Sublist ((l.filterMap f).map g) (l.map g) := by
  induction l with
  | nil => simp
  | cons x l ih =>
    rw [List.filterMap_cons]
    cases hx : f x with
    | none => exact ih.trans (List.sublist_cons_self _ _)
    | some y =>
      rw [List.map_cons, List.map_cons, hf x y hx]
      exact ih.cons₂ _

theorem keys_removeNew_sublist (m : RMap) (k' : String) :
    List.Sublist ((removeNew m k').map Prod.fst) (m.map Prod.fst) := by
  unfold removeNew
  refine filterMap_map_sublist _ _ ?_ m
  intro x y h
  by_cases hxk : x.1 = k'
  · rw [if_pos hxk] at h
    split at h
    · exact Option.noConfusion h
    · injection h with h
      rw [← h]
  · rw [if_neg hxk] at h
    injection h with h
    rw [← h]

theorem valsNE_removeNew (m : RMap) (k' : String)
    (h : ∀ p ∈ m, p.2 ≠ []) : ∀ p ∈ removeNew m k', p.2 ≠ [] := by
  intro p hp
  obtain ⟨q, hq, hfq⟩ := List.mem_filterMap.mp hp
  by_cases hqk : q.1 = k'
  · rw [if_pos hqk] at hfq
    split at hfq
    · exact Option.noConfusion hfq
    · injection hfq with hfq
      subst hfq
      rename_i hcond
      exact fun hnil => hcond (List.isEmpty_iff.mpr hnil)
  · rw [if_neg hqk] at hfq
    injection hfq with hfq
    subst hfq
    exact h q hq

theorem removeNew_of_not_mem (m : RMap) (k' : String)
    (h : k' ∉ m.map Prod.fst) : removeNew m k' = m := by
  induction m with
  | nil => rfl
  | cons p m ih =>
    obtain ⟨a, v⟩ := p
    simp only [List.map_cons, List.mem_cons, not_or] at h
    unfold removeNew
    rw [List.filterMap_cons]
    simp only [if_neg (show ¬((a, v).1 = k') from fun hh => h.1 hh.symm)]
    have hm := ih h.2
    unfold removeNew at hm
    rw [hm]

theorem reasonsAt_removeNew (m : RMap) (k' : String) (k : String)
    (hn : (m.map Prod.fst).Nodup) :
    reasonsAt (removeNew m k') k =
      if k = k' then (reasonsAt m k).filter (fun x => x ≠ .NewItem)
      else reasonsAt m k := by
  induction m with
  | nil =>
    unfold removeNew
    simp only [List.filterMap_nil]
    split <;> rfl
  | cons p m ih =>
    obtain ⟨a, v⟩ := p
    simp only [List.map_cons, List.nodup_cons] at hn
    have hrm2 : removeNew m a = m := removeNew_of_not_mem m a hn.1
    by_cases hak : a = k'
    · subst hak
      by_cases he : ((v.filter fun x => x ≠ .NewItem).isEmpty = true)
      · have hstep : removeNew ((a, v) :: m) a = m := by
          unfold removeNew
          rw [List.filterMap_cons, if_pos (show ((a, v).1 = a) from rfl), if_pos he]
          unfold removeNew at hrm2
          exact hrm2
        rw [hstep]
        by_cases hka : k = a
        · subst hka
          rw [if_pos rfl, reasonsAt_cons_self, List.isEmpty_iff.mp he, reasonsAt,
            lookup_eq_none_iff.mpr hn.1]
          rfl
        · rw [if_neg hka, reasonsAt_cons_ne hka]
      · have hstep : removeNew ((a, v) :: m) a =
            (a, v.filter fun x => x ≠ .NewItem) :: m := by
          unfold removeNew
          rw [List.filterMap_cons, if_pos (show ((a, v).1 = a) from rfl), if_neg he]
          unfold removeNew at hrm2
          exact congrArg (List.cons (a, v.filter fun x => x ≠ Reason.NewItem)) hrm2
        rw [hstep]
        by_cases hka : k = a
        · subst hka
          rw [if_pos rfl, reasonsAt_cons_self, reasonsAt_cons_self]
        · rw [if_neg hka, reasonsAt_cons_ne hka, reasonsAt_cons_ne hka]
    · have hstep : removeNew ((a, v) :: m) k' = (a, v) :: removeNew m k' := by
        unfold removeNew
        rw [List.filterMap_cons, if_neg (show ¬((a, v).1 = k') from hak)]
      rw [hstep]
      by_cases hka : k = a
      · subst hka
        rw [if_neg (show ¬(k = k') from fun h => hak h), reasonsAt_cons_self,
          reasonsAt_cons_self]
      · rw [reasonsAt_cons_ne hka, reasonsAt_cons_ne hka]
        exact ih hn.2

theorem keysNodup_removeNew (m : RMap) (k' : String)
    (hn : (m.map Prod.fst).Nodup) : ((removeNew m k').map Prod.fst).Nodup :=
  hn.sublist (keys_removeNew_sublist m k')

theorem reasonsAt_foldl_removeNew {β : Type} (L : List (String × β)) (m : RMap)
    (hn : (m.map Prod.fst).Nodup) (k : String) :
    reasonsAt (L.foldl (fun acc p => removeNew acc p.1) m) k =
      if k ∈ L.map Prod.fst then (reasonsAt m k).filter (fun x => x ≠ .NewItem)
      else reasonsAt m k := by
  induction L generalizing m with
  | nil => simp
  | cons p L ih =>
    rw [List.foldl_cons, ih _ (keysNodup_removeNew m p.1 hn),
      reasonsAt_removeNew _ _ _ hn]
    simp only [List.map_cons, List.mem_cons]
    by_cases hkL : k ∈ L.map Prod.fst
    · rw [if_pos hkL, if_pos (Or.inr hkL)]
      by_cases hkp : k = p.1
      · rw [if_pos hkp, List.filter_filter]
        simp
      · rw [if_neg hkp]
    · rw [if_neg hkL]
      by_cases hkp : k = p.1
      · rw [if_pos hkp, if_pos (Or.inl hkp)]
      · rw [if_neg hkp, if_neg (by simp [hkp, hkL])]

theorem keysNodup_foldl_removeNew {β : Type} (L : List (String × β)) (m : RMap)
    (hn : (m.map Prod.fst).Nodup) :
    ((L.foldl (fun acc p => removeNew acc p.1) m).map Prod.fst).Nodup := by
  induction L generalizing m with
  | nil => exact hn
  | cons p L ih => exact ih _ (keysNodup_removeNew m p.1 hn)

theorem valsNE_foldl_removeNew {β : Type} (L : List (String × β)) (m : RMap)
    (h : ∀ p ∈ m, p.2 ≠ []) :
    ∀ p ∈ L.foldl (fun acc p => removeNew acc p.1) m, p.2 ≠ [] := by
  induction L generalizing m with
  | nil => exact h
  | cons p L ih => exact ih _ (valsNE_removeNew m p.1 h)

theorem reasonsAt_applyGuard (protect : Bool) (d : DiffResult) (newLen : ℕ)
    (m : RMap) (hn : (m.map Prod.fst).Nodup) (k : String) :
    reasonsAt (applyGuard protect d newLen m) k =
      if guardFires protect d newLen m = true ∧ k ∈ niKeys d then
        (reasonsAt m k).filter (fun x => x ≠ .NewItem)
      else reasonsAt m k := by
  unfold applyGuard
  by_cases hg : guardFires protect d newLen m = true
  · rw [if_pos hg, reasonsAt_foldl_removeNew _ _ hn]
    by_cases hk : k ∈ niKeys d
    · rw [if_pos (show k ∈ d.new_items.map Prod.fst from hk), if_pos ⟨hg, hk⟩]
    · rw [if_neg (show k ∉ d.new_items.map Prod.fst from hk),
        if_neg (by simp [hk])]
  · rw [if_neg hg, if_neg (by simp [hg])]

theorem keysNodup_applyGuard (protect : Bool) (d : DiffResult) (newLen : ℕ)
    (m : RMap) (hn : (m.map Prod.fst).Nodup) :
    ((applyGuard protect d newLen m).map Prod.fst).Nodup := by
  unfold applyGuard
  split
  · exact keysNodup_foldl_removeNew _ _ hn
  · exact hn

theorem valsNE_applyGuard (protect : Bool) (d : DiffResult) (newLen : ℕ)
    (m : RMap) (h : ∀ p ∈ m, p.2 ≠ []) :
    ∀ p ∈ applyGuard protect d newLen m, p.2 ≠ [] := by
  unfold applyGuard
  split
  · exact valsNE_foldl_removeNew _ _ h
  · exact h

theorem mem_keys_iff_reasonsAt_ne (m : RMap) (h : ∀ p ∈ m, p.2 ≠ [])
    (k : String) : k ∈ m.map Prod.fst ↔ reasonsAt m k ≠ [] := by
  constructor
  · intro hk
    obtain ⟨b, hb, hmem⟩ := lookup_isSome_of_mem_keys hk
    rw [reasonsAt, hb]
    exact h (k, b) hmem
  · intro hne
    by_contra hk
    rw [reasonsAt, lookup_eq_none_iff.mpr hk] at hne
    exact hne rfl

theorem ite_singleton_sublist {α : Type} (c : Prop) [Decidable c] (x : α) :
    List.Sublist (if c then [x] else []) [x] := by
  split
  · exact List.Sublist.refl _
  · exact List.nil_sublist _

theorem canonReasons_sublist (d : DiffResult) (k : String) :
    List.Sublist (canonReasons d k)
      [Reason.NewItem, Reason.PriceChange, Reason.Restock, Reason.StockIncrease] := by
  unfold canonReasons
  show List.Sublist _ ((([Reason.NewItem] ++ [Reason.PriceChange]) ++
    [Reason.Restock]) ++ [Reason.StockIncrease])
  exact (((ite_singleton_sublist _ _).append (ite_singleton_sublist _ _)).append
    (ite_singleton_sublist _ _)).append (ite_singleton_sublist _ _)

theorem pairwise_prec_of_sublist {l : List Reason}
    (h : List.Sublist l
      [Reason.NewItem, Reason.PriceChange, Reason.Restock, Reason.StockIncrease]) :
    l.Pairwise fun a b => a.prec < b.prec :=
  List.Pairwise.sublist h (by decide)

theorem canon_ne_iff (d : DiffResult) (k : String) :
    canonReasons d k ≠ [] ↔
      k ∈ niKeys d ∨ k ∈ pcKeys d ∨ k ∈ rKeys d ∨ k ∈ siKeys d := by
  unfold canonReasons
  by_cases c1 : k ∈ niKeys d <;> by_cases c2 : k ∈ pcKeys d <;>
    by_cases c3 : k ∈ rKeys d <;> by_cases c4 : k ∈ siKeys d <;>
    simp [c1, c2, c3, c4]

theorem filter_canon_ne_iff (d : DiffResult) (k : String) :
    (canonReasons d k).filter (fun x => x ≠ .NewItem) ≠ [] ↔
      k ∈ pcKeys d ∨ k ∈ rKeys d ∨ k ∈ siKeys d := by
  unfold canonReasons
  by_cases c1 : k ∈ niKeys d <;> by_cases c2 : k ∈ pcKeys d <;>
    by_cases c3 : k ∈ rKeys d <;> by_cases c4 : k ∈ siKeys d <;>
    simp [c1, c2, c3, c4]

theorem newItem_mem_canon (d : DiffResult) (k : String) :
    Reason.NewItem ∈ canonReasons d k ↔ k ∈ niKeys d := by
  unfold canonReasons
  by_cases c1 : k ∈ niKeys d <;> by_cases c2 : k ∈ pcKeys d <;>
    by_cases c3 : k ∈ rKeys d <;> by_cases c4 : k ∈ siKeys d <;>
    simp [c1, c2, c3, c4]

theorem reasonsAt_final (protect : Bool) (old new : Snap) (k : String) :
    reasonsAt (finalReasons protect old new) k =
      if guardFires protect (compute_diff old new) new.length
            (buildReasonsMap (compute_diff old new)) = true ∧
          k ∈ niKeys (compute_diff old new) then
        (canonReasons (compute_diff old new) k).filter fun x => x ≠ .NewItem
      else canonReasons (compute_diff old new) k := by
  unfold finalReasons
  rw [reasonsAt_applyGuard _ _ _ _ (keysNodup_build _)]
  obtain ⟨h1, h2, h3, h4⟩ := catKeysNodup old new
  simp only [reasonsAt_build _ h1 h2 h3 h4]

theorem runMessages_keys (protect : Bool) (old new : Snap) :
    (runMessages protect old new).map Prod.fst =
      sortedSet ((finalReasons protect old new).map Prod.fst) := by
  unfold runMessages
  rw [List.map_map]
  exact (List.map_congr_left fun a _ => rfl).trans (List.map_id _)

/-- C1: every run of the aggregation pipeline (with the baseline guard on or
off) emits exactly one message per changed product — the message keys are
distinct, sorted in Python's string order, and a key gets a message iff it
has a surviving change — and within each message the reason labels follow
the fixed precedence order `NewItem`, `PriceChange`, `Restock`,
`StockIncrease`, however many change kinds apply to the product. -/
theorem spec_C1 (protect : Bool) (old new : Snap) :
    (((runMessages protect old new).map Prod.fst).Nodup ∧
      List.Sorted strLeP ((runMessages protect old new).map Prod.fst))
    ∧ (∀ p ∈ runMessages protect old new,
        p.2 ≠ [] ∧ p.2.Pairwise fun a b => a.prec < b.prec)
    ∧ (∀ k, k ∈ (runMessages protect old new).map Prod.fst ↔
        (k ∈ pcKeys (compute_diff old new) ∨ k ∈ rKeys (compute_diff old new) ∨
         k ∈ siKeys (compute_diff old new) ∨
         (k ∈ niKeys (compute_diff old new) ∧
           guardFires protect (compute_diff old new) new.length
             (buildReasonsMap (compute_diff old new)) = false))) := by
  have hkeys := runMessages_keys protect old new
  have hvals : ∀ p ∈ finalReasons protect old new, p.2 ≠ [] := by
    unfold finalReasons
    exact valsNE_applyGuard _ _ _ _ (valsNE_build _)
  have hmemiff : ∀ k, k ∈ (runMessages protect old new).map Prod.fst ↔
      reasonsAt (finalReasons protect old new) k ≠ [] := by
    intro k
    rw [hkeys, mem_sortedSet]
    exact mem_keys_iff_reasonsAt_ne _ hvals k
  refine ⟨⟨?_, ?_⟩, ?_, ?_⟩
  · rw [hkeys]
    exact nodup_sortedSet _
  · rw [hkeys]
    exact sorted_sortedSet _
  · intro p hp
    unfold runMessages at hp
    obtain ⟨k, hk, hpk⟩ := List.mem_map.mp hp
    rw [← hpk]
    constructor
    · refine (mem_keys_iff_reasonsAt_ne _ hvals k).mp ?_
      rwa [mem_sortedSet] at hk
    · rw [reasonsAt_final]
      split
      · exact pairwise_prec_of_sublist
          ((List.filter_sublist _).trans (canonReasons_sublist _ _))
      · exact pairwise_prec_of_sublist (canonReasons_sublist _ _)
  · intro k
    rw [hmemiff k, reasonsAt_final]
    by_cases hg : guardFires protect (compute_diff old new) new.length
        (buildReasonsMap (compute_diff old new)) = true
    · by_cases hni : k ∈ niKeys (compute_diff old new)
      · rw [if_pos ⟨hg, hni⟩, filter_canon_ne_iff]
        simp [hg]
      · rw [if_neg (by simp [hni]), canon_ne_iff]
        simp only [hg]
        tauto
    · rw [if_neg (by simp [hg]), canon_ne_iff]
      have hg' : guardFires protect (compute_diff old new) new.length
          (buildReasonsMap (compute_diff old new)) = false := by
        simpa using hg
      simp only [hg']
      tauto

/-- Witness for C1 on the running example: product `a` changed in three
ways yet gets one message, with reasons in precedence order. -/
theorem spec_C1_witness :
    (("a", [Reason.PriceChange, Reason.Restock, Reason.StockIncrease]) :
        String × List Reason).2 ≠ [] ∧
      ([Reason.PriceChange, Reason.Restock, Reason.StockIncrease]).Pairwise
        fun a b => a.prec < b.prec :=
  (spec_C1 true oldEx newEx).2.1 _ (by decide)

theorem newCount_pos_of_ratio {cnt len : ℕ}
    (h : (7 : ℚ) / 10 < (cnt : ℚ) / (len : ℚ)) : cnt ≠ 0 := by
  rintro rfl
  norm_num at h

theorem guardFires_iff_suppress (protect : Bool) (old new : Snap) :
    (guardFires protect (compute_diff old new) new.length
        (buildReasonsMap (compute_diff old new)) = true) ↔
      suppressCond protect (compute_diff old new).new_items.length new.length := by
  unfold guardFires suppressCond
  constructor
  · intro h
    simp only [Bool.and_eq_true, decide_eq_true_eq] at h
    obtain ⟨⟨hp, _⟩, hr, h20⟩ := h
    by_cases hlen : new.length = 0
    · rw [if_pos hlen] at h20
      omega
    · rw [if_neg hlen] at h20 hr
      exact ⟨hp, h20, (newRatioHigh_iff _ hlen).mp hr⟩
  · rintro ⟨hp, h20, hr⟩
    have hlen : new.length ≠ 0 := by omega
    have hcnt : (compute_diff old new).new_items.length ≠ 0 :=
      newCount_pos_of_ratio hr
    have hne : (compute_diff old new).new_items ≠ [] := by
      intro hnil
      rw [hnil] at hcnt
      exact hcnt rfl
    have hm : buildReasonsMap (compute_diff old new) ≠ [] := by
      obtain ⟨p, hp'⟩ := List.exists_mem_of_ne_nil _ hne
      have hk : p.1 ∈ (buildReasonsMap (compute_diff old new)).map Prod.fst :=
        (keys_build _ _).mpr (Or.inl (List.mem_map.mpr ⟨p, hp', rfl⟩))
      intro hnil
      rw [hnil] at hk
      simp at hk
    simp only [Bool.and_eq_true, decide_eq_true_eq]
    refine ⟨⟨hp, ?_⟩, ?_, ?_⟩
    · simp [List.isEmpty_iff, hm]
    · rw [if_neg hlen]
      exact (newRatioHigh_iff _ hlen).mpr hr
    · rw [if_neg hlen]
      exact h20

/-- C6: the `NewItem` reason survives for a key iff the key is genuinely new
and the baseline guard does not trip, where the guard trips exactly when it
is enabled, the current snapshot holds at least 20 products and the ratio of
new items to current products exceeds 0.70; suppression removes only the
`NewItem` reason, every other reason surviving unchanged.  In particular
total=30, new=25 trips the guard while total=10, new=9 does not. -/
theorem spec_C6 (protect : Bool) (old new : Snap) (k : String) :
    (Reason.NewItem ∈ reasonsAt (finalReasons protect old new) k ↔
      (k ∈ niKeys (compute_diff old new) ∧
        ¬ suppressCond protect (compute_diff old new).new_items.length new.length))
    ∧ (∀ r : Reason, r ≠ .NewItem →
        (r ∈ reasonsAt (finalReasons protect old new) k ↔
          r ∈ reasonsAt (buildReasonsMap (compute_diff old new)) k))
    ∧ suppressCond true 25 30 ∧ ¬ suppressCond true 9 10 := by
  obtain ⟨h1, h2, h3, h4⟩ := catKeysNodup old new
  refine ⟨?_, ?_, ?_, ?_⟩
  · rw [reasonsAt_final]
    by_cases hg : guardFires protect (compute_diff old new) new.length
        (buildReasonsMap (compute_diff old new)) = true
    · by_cases hni : k ∈ niKeys (compute_diff old new)
      · rw [if_pos ⟨hg, hni⟩]
        have hs := (guardFires_iff_suppress protect old new).mp hg
        simp [hs, List.mem_filter]
      · rw [if_neg (by simp [hni]), newItem_mem_canon]
        simp [hni]
    · rw [if_neg (by simp [hg]), newItem_mem_canon]
      have hs : ¬ suppressCond protect
          (compute_diff old new).new_items.length new.length := fun h =>
        hg ((guardFires_iff_suppress protect old new).mpr h)
      simp [hs]
  · intro r hr
    rw [reasonsAt_final, reasonsAt_build _ h1 h2 h3 h4]
    split
    · rw [List.mem_filter]
      simp [hr]
    · exact Iff.rfl
  · refine ⟨rfl, by norm_num, by norm_num⟩
  · rintro ⟨_, h20, _⟩
    omega

/-- Witness for C6 on the running example: a non-`NewItem` reason is
unaffected by the guard stage. -/
theorem spec_C6_witness :
    Reason.Restock ∈ reasonsAt (finalReasons true oldEx newEx) "a" ↔
      Reason.Restock ∈ reasonsAt (buildReasonsMap (compute_diff oldEx newEx)) "a" :=
  (spec_C6 true oldEx newEx "a").2.1 Reason.Restock (by decide)

/-- C8: along the whole `jdump` trace a reader only ever sees the prior
snapshot or the complete new one at the destination — never a partial
write; every state before the final atomic rename still holds the prior
snapshot intact (so a crash between temp-write and rename preserves it,
parseable as before), and the final state holds the complete new
snapshot. -/
theorem spec_C8 (prior : Option (List ℕ)) (content : List ℕ) :
    (∀ st ∈ jdumpTrace prior content, st.dest = prior ∨ st.dest = some content)
    ∧ (∀ st ∈ (jdumpTrace prior content).dropLast, st.dest = prior)
    ∧ (jdumpTrace prior content).getLast? =
        some { dest := some content, temp := none } := by
  refine ⟨?_, ?_, ?_⟩
  · intro st hst
    unfold jdumpTrace at hst
    rcases List.mem_cons.mp hst with rfl | hst
    · exact Or.inl rfl
    · rcases List.mem_append.mp hst with hst | hst
      · obtain ⟨i, _, rfl⟩ := List.mem_map.mp hst
        exact Or.inl rfl
      · rcases List.mem_singleton.mp hst with rfl
        exact Or.inr rfl
  · intro st hst
    unfold jdumpTrace at hst
    rw [List.dropLast_concat] at hst
    rcases List.mem_cons.mp hst with rfl | hst
    · rfl
    · obtain ⟨i, _, rfl⟩ := List.mem_map.mp hst
      rfl
  · unfold jdumpTrace
    rw [List.getLast?_concat]

/-- Witness for C8: with a prior snapshot `[0]` and new content `[1, 2]`,
the first intermediate state still holds the prior snapshot. -/
theorem spec_C8_witness :
    ({ dest := some [0], temp := none } : FSState).dest = some [0] ∨
      ({ dest := some [0], temp := none } : FSState).dest = some [1, 2] :=
  (spec_C8 (some [0]) [1, 2]).1 { dest := some [0], temp := none } (by decide)

/-- C9: in every run the snapshot save is the first effect, unconditionally
preceding every notification attempt; each changed key is attempted exactly
once, in sorted order; and the set and order of attempted keys is identical
whatever the webhook configuration and whatever each delivery returns —
a missing webhook or a failed delivery is absorbed inside `send_discord`
and never stops the remaining keys. -/
theorem spec_C9 (protect : Bool) (old new : Snap) (wh1 wh2 : Option String)
    (d1 d2 : String → Bool) :
    (mainEffects protect wh1 d1 old new).head? = some (.save new)
    ∧ (mainEffects protect wh1 d1 old new).filterMap attemptKey =
        (runMessages protect old new).map Prod.fst
    ∧ (mainEffects protect wh1 d1 old new).filterMap attemptKey =
        (mainEffects protect wh2 d2 old new).filterMap attemptKey := by
  have haux : ∀ (wh : Option String) (dl : String → Bool),
      (mainEffects protect wh dl old new).filterMap attemptKey =
        (runMessages protect old new).map Prod.fst := by
    intro wh dl
    unfold mainEffects
    rw [List.filterMap_cons]
    show (((runMessages protect old new).map fun p =>
      send_discord wh dl p.1).filterMap attemptKey) = _
    rw [List.filterMap_map]
    have hcomp : (attemptKey ∘ fun p : String × List Reason =>
        send_discord wh dl p.1) = fun p => some p.1 := by
      funext p
      cases wh <;> rfl
    rw [hcomp]
    rw [show (fun p : String × List Reason => some p.1) =
      some ∘ Prod.fst from rfl]
    exact congrFun (List.filterMap_eq_map _) _
  exact ⟨rfl, haux wh1 d1, (haux wh1 d1).trans (haux wh2 d2).symm⟩

theorem toNat_ofNat_valid (n : ℕ) (h : n < 0xd800) : (Char.ofNat n).toNat = n := by
  unfold Char.ofNat
  rw [dif_pos (Or.inl h)]
  rfl

theorem toLower_idem (c : Char) : c.toLower.toLower = c.toLower := by
  unfold Char.toLower
  by_cases h : c.toNat ≥ 65 ∧ c.toNat ≤ 90
  · rw [if_pos h]
    have hval : (Char.ofNat (c.toNat + 32)).toNat = c.toNat + 32 :=
      toNat_ofNat_valid _ (by omega)
    rw [if_neg (by omega)]
  · rw [if_neg h, if_neg h]

theorem takeWhile_append_cons {p : Char → Bool} {l : List Char} {x : Char}
    {r : List Char} (hl : ∀ c ∈ l, p c = true) (hx : p x = false) :
    (l ++ x :: r).takeWhile p = l := by
  induction l with
  | nil => simp [List.takeWhile_cons, hx]
  | cons a l ih =>
    rw [List.cons_append, List.takeWhile_cons, hl a (by simp)]
    rw [ih fun c hc => hl c (by simp [hc])]
    simp

theorem dropWhile_append_all {p : Char → Bool} {l r : List Char}
    (hl : ∀ c ∈ l, p c = true) : (l ++ r).dropWhile p = r.dropWhile p := by
  induction l with
  | nil => simp
  | cons a l ih =>
    rw [List.cons_append, List.dropWhile_cons, hl a (by simp)]
    exact ih fun c hc => hl c (by simp [hc])

theorem beforeChar_cons (ch a : Char) (t : List Char) :
    beforeChar ch (a :: t) = if a = ch then [] else a :: beforeChar ch t := rfl

theorem beforeChar_append {ch : Char} {l r : List Char} (hl : ∀ c ∈ l, c ≠ ch) :
    beforeChar ch (l ++ r) = l ++ beforeChar ch r := by
  induction l with
  | nil => simp
  | cons a l ih =>
    rw [List.cons_append, beforeChar_cons, if_neg (hl a (by simp)),
      ih fun c hc => hl c (by simp [hc]), List.cons_append]

theorem beforeChar_all {ch : Char} {l : List Char} (hl : ∀ c ∈ l, c ≠ ch) :
    beforeChar ch l = l := by
  induction l with
  | nil => rfl
  | cons a l ih =>
    rw [beforeChar_cons, if_neg (hl a (by simp)),
      ih fun c hc => hl c (by simp [hc])]

theorem splitAtLastSlash_eq : ∀ {l pre post : List Char},
    splitAtLastSlash l = some (pre, post) → l = pre ++ '/' :: post := by
  intro l
  induction l with
  | nil => intro pre post h; simp [splitAtLastSlash] at h
  | cons x xs ih =>
    intro pre post h
    unfold splitAtLastSlash at h
    cases hx : splitAtLastSlash xs with
    | some pq =>
      obtain ⟨p2, q2⟩ := pq
      simp only [hx] at h
      injection h with h
      injection h with h1 h2
      subst h1
      subst h2
      rw [List.cons_append]
      exact congrArg (x :: ·) (ih hx)
    | none =>
      simp only [hx] at h
      by_cases hxc : x = '/'
      · rw [if_pos hxc] at h
        injection h with h
        injection h with h1 h2
        subst h1
        subst h2
        rw [hxc, List.nil_append]
      · rw [if_neg hxc] at h
        exact Option.noConfusion h

theorem stripParams_no_semi {p : List Char} (hp : ∀ c ∈ p, c ≠ ';') :
    stripParams p = p := by
  unfold stripParams
  cases hsp : splitAtLastSlash p with
  | none => exact beforeChar_all hp
  | some pq =>
    obtain ⟨pre, post⟩ := pq
    have hpe := splitAtLastSlash_eq hsp
    show pre ++ '/' :: beforeChar ';' post = p
    rw [beforeChar_all fun c hc => hp c (by
      rw [hpe]
      exact List.mem_append_right _ (List.mem_cons_of_mem _ hc))]
    exact hpe.symm

theorem dropScheme_assemble (scheme rest : List Char) (hs1 : scheme ≠ [])
    (hs2 : scheme.all isSchemeChar = true)
    (hs3 : (scheme.headD 'a').isAlpha = true) :
    dropScheme (scheme ++ ':' :: rest) = rest := by
  have hnc : ∀ c ∈ scheme, (decide (c ≠ ':')) = true := by
    intro c hc
    by_cases h : c = ':'
    · subst h
      have := List.all_eq_true.mp hs2 ':' hc
      exact absurd this (by decide)
    · simp [h]
  unfold dropScheme
  rw [takeWhile_append_cons hnc (by simp)]
  rw [if_pos (by
    simp only [Bool.and_eq_true, decide_eq_true_eq]
    refine ⟨⟨⟨?_, ?_⟩, hs2⟩, hs3⟩
    · rw [List.length_append, List.length_cons]
      omega
    · simpa [List.isEmpty_iff] using hs1)]
  rw [List.drop_left]
  rfl

theorem dropNetloc_assemble (host tail : List Char)
    (hh : ∀ c ∈ host, c ≠ '/' ∧ c ≠ '?' ∧ c ≠ '#')
    (htail : tail = [] ∨ (∃ t, tail = '/' :: t) ∨ (∃ t, tail = '?' :: t) ∨
      (∃ t, tail = '#' :: t)) :
    dropNetloc ('/' :: '/' :: (host ++ tail)) = tail := by
  unfold dropNetloc
  show (host ++ tail).dropWhile
      (fun c => decide (c ≠ '/') && decide (c ≠ '?') && decide (c ≠ '#')) = tail
  rw [dropWhile_append_all fun c hc => by
    obtain ⟨h1, h2, h3⟩ := hh c hc
    simp [h1, h2, h3]]
  rcases htail with rfl | ⟨t, rfl⟩ | ⟨t, rfl⟩ | ⟨t, rfl⟩ <;> simp [List.dropWhile_cons]

theorem urlPath_assemble (scheme host path suffix : List Char)
    (hs1 : scheme ≠ []) (hs2 : scheme.all isSchemeChar = true)
    (hs3 : (scheme.headD 'a').isAlpha = true)
    (hh : ∀ c ∈ host, c ≠ '/' ∧ c ≠ '?' ∧ c ≠ '#')
    (hp1 : path = [] ∨ ∃ t, path = '/' :: t)
    (hp2 : ∀ c ∈ path, c ≠ '?' ∧ c ≠ '#' ∧ c ≠ ';')
    (hsuf : suffix = [] ∨ (∃ t, suffix = '?' :: t) ∨ (∃ t, suffix = '#' :: t)) :
    urlPath (assembleUrl scheme host path suffix) = path := by
  unfold urlPath assembleUrl
  rw [show scheme ++ ':' :: '/' :: '/' :: host ++ path ++ suffix =
    scheme ++ ':' :: ('/' :: '/' :: (host ++ (path ++ suffix))) from by simp]
  rw [dropScheme_assemble _ _ hs1 hs2 hs3]
  rw [dropNetloc_assemble host (path ++ suffix) hh (by
    rcases hp1 with rfl | ⟨t, rfl⟩
    · rcases hsuf with rfl | ⟨t, rfl⟩ | ⟨t, rfl⟩
      · exact Or.inl rfl
      · exact Or.inr (Or.inr (Or.inl ⟨t, rfl⟩))
      · exact Or.inr (Or.inr (Or.inr ⟨t, rfl⟩))
    · exact Or.inr (Or.inl ⟨t ++ suffix, rfl⟩))]
  rcases hsuf with rfl | ⟨t, rfl⟩ | ⟨t, rfl⟩
  · rw [List.append_nil]
    rw [beforeChar_all fun c hc => (hp2 c hc).2.1]
    rw [beforeChar_all fun c hc => (hp2 c hc).1]
    exact stripParams_no_semi fun c hc => (hp2 c hc).2.2
  · rw [beforeChar_append fun c hc => (hp2 c hc).2.1]
    rw [show beforeChar '#' ('?' :: t) = '?' :: beforeChar '#' t from by
      rw [beforeChar_cons, if_neg (by decide)]]
    rw [beforeChar_append fun c hc => (hp2 c hc).1]
    rw [show beforeChar '?' ('?' :: beforeChar '#' t) = [] from by
      rw [beforeChar_cons, if_pos rfl]]
    rw [List.append_nil]
    exact stripParams_no_semi fun c hc => (hp2 c hc).2.2
  · rw [beforeChar_append fun c hc => (hp2 c hc).2.1]
    rw [show beforeChar '#' ('#' :: t) = [] from by
      rw [beforeChar_cons, if_pos rfl]]
    rw [List.append_nil]
    rw [beforeChar_all fun c hc => (hp2 c hc).1]
    exact stripParams_no_semi fun c hc => (hp2 c hc).2.2

theorem matchAtSlash_chars {rest g : List Char} (h : matchAtSlash rest = some g) :
    ∀ c ∈ g, c ∈ rest := by
  intro c hc
  simp only [matchAtSlash] at h
  split at h
  · exact Option.noConfusion h
  · split at h
    · split at h
      · injection h with h
        subst h
        exact (List.takeWhile_sublist _).subset hc
      · split at h
        · injection h with h
          subst h
          exact (List.takeWhile_sublist _).subset hc
        · exact Option.noConfusion h
    · exact Option.noConfusion h

theorem findSlug_chars : ∀ {l g : List Char}, findSlug l = some g → ∀ c ∈ g, c ∈ l := by
  intro l
  induction l with
  | nil => intro g h; simp [findSlug] at h
  | cons x xs ih =>
    intro g h c hc
    unfold findSlug at h
    by_cases hx : x = '/'
    · rw [if_pos hx] at h
      cases hm : matchAtSlash xs with
      | some g2 =>
        rw [hm] at h
        injection h with h
        subst h
        exact List.mem_cons_of_mem x (matchAtSlash_chars hm c hc)
      | none =>
        rw [hm] at h
        exact List.mem_cons_of_mem x (ih h c hc)
    · rw [if_neg hx] at h
      exact List.mem_cons_of_mem x (ih h c hc)

theorem lastSeg_chars (l : List Char) : ∀ c ∈ lastSeg l, c ∈ l := by
  intro c hc
  unfold lastSeg at hc
  rw [List.mem_reverse] at hc
  have hc2 := (List.takeWhile_sublist _).subset hc
  rw [List.mem_reverse] at hc2
  unfold stripChar at hc2
  rw [List.mem_reverse] at hc2
  have hc3 := (List.dropWhile_sublist _).subset hc2
  rw [List.mem_reverse] at hc3
  exact (List.dropWhile_sublist _).subset hc3

theorem slugOfPath_chars_lower (path : List Char) :
    ∀ c ∈ slugOfPath path, c.toLower = c := by
  intro c hc
  simp only [slugOfPath] at hc
  have hmem : c ∈ path.map Char.toLower := by
    cases hf : findSlug (path.map Char.toLower) with
    | some g =>
      simp only [hf] at hc
      exact findSlug_chars hf c hc
    | none =>
      simp only [hf] at hc
      exact lastSeg_chars _ c hc
  obtain ⟨c0, _, rfl⟩ := List.mem_map.mp hmem
  exact toLower_idem c0

/-- C7 (amended): `stable_key_from_url` is a pure function of the URL, and
for two URLs assembled from the same scheme, host and path that differ only
in their query string and/or fragment it returns the same key, made of
lowercase-normalized characters — provided the slug derived from the path
is nonempty.  (When the slug is empty — e.g. a root or empty path — the code
falls back to the full lowercased URL, which retains the query string and
fragment; see the counterexample.) -/
theorem spec_C7 (scheme host path suf1 suf2 : List Char)
    (hs1 : scheme ≠ []) (hs2 : scheme.all isSchemeChar = true)
    (hs3 : (scheme.headD 'a').isAlpha = true)
    (hh : ∀ c ∈ host, c ≠ '/' ∧ c ≠ '?' ∧ c ≠ '#')
    (hp1 : path = [] ∨ ∃ t, path = '/' :: t)
    (hp2 : ∀ c ∈ path, c ≠ '?' ∧ c ≠ '#' ∧ c ≠ ';')
    (h1 : suf1 = [] ∨ (∃ t, suf1 = '?' :: t) ∨ (∃ t, suf1 = '#' :: t))
    (h2 : suf2 = [] ∨ (∃ t, suf2 = '?' :: t) ∨ (∃ t, suf2 = '#' :: t))
    (hslug : slugOfPath path ≠ []) :
    stable_key_from_url (assembleUrl scheme host path suf1) =
      stable_key_from_url (assembleUrl scheme host path suf2) ∧
    ∀ c ∈ stable_key_from_url (assembleUrl scheme host path suf1),
      c.toLower = c := by
  have hkey : ∀ suf, suf = [] ∨ (∃ t, suf = '?' :: t) ∨ (∃ t, suf = '#' :: t) →
      stable_key_from_url (assembleUrl scheme host path suf) = slugOfPath path := by
    intro suf hsuf
    simp only [stable_key_from_url, slug_from_pdp_url]
    rw [urlPath_assemble scheme host path suf hs1 hs2 hs3 hh hp1 hp2 hsuf]
    rw [if_neg (by simpa [List.isEmpty_iff] using hslug)]
  refine ⟨(hkey suf1 h1).trans (hkey suf2 h2).symm, ?_⟩
  rw [hkey suf1 h1]
  exact slugOfPath_chars_lower path

/-- Counterexample for C7 as literally stated: two URLs with identical
scheme (`https`), host (`host`) and path (`/`) that differ only in the
query string receive different keys, because the empty slug makes
`stable_key_from_url` fall back to the full lowercased URL, query included. -/
theorem spec_C7_cex :
    stable_key_from_url
        (assembleUrl "https".data "host".data "/".data "?a=1".data) ≠
      stable_key_from_url
        (assembleUrl "https".data "host".data "/".data "?a=2".data) := by
  decide

/-- Witness for C7 at a PDP-shaped URL: query and fragment variants of the
same page resolve to the same key. -/
theorem spec_C7_witness :
    stable_key_from_url
        (assembleUrl "https".data "www.als.com".data "/arcteryx-beta/p".data
          "?color=black".data) =
      stable_key_from_url
        (assembleUrl "https".data "www.als.com".data "/arcteryx-beta/p".data
          "#reviews".data) :=
  (spec_C7 "https".data "www.als.com".data "/arcteryx-beta/p".data
    "?color=black".data "#reviews".data (by decide) (by decide) (by decide)
    (by decide) (Or.inr ⟨"arcteryx-beta/p".data, rfl⟩) (by decide)
    (Or.inr (Or.inl ⟨"color=black".data, rfl⟩))
    (Or.inr (Or.inr ⟨"reviews".data, rfl⟩)) (by decide)).1
